import Mathlib

/-!
Verification of the market-risk engine (risk/backtest.py, risk/backtest_stats.py,
risk/ewma.py, risk/copulas.py, risk/garch.py, risk/student_t.py, risk/summary.py)
against its specification, via a shallow embedding in Lean.

Numbers that the Python code holds as IEEE doubles are modelled as exact
rationals; the NaN sentinel becomes an Option, and transcendental library
calls (np.log, scipy chi2.cdf, scipy t.ppf / t.pdf, the arch GARCH optimizer,
the ks_2samp statistic on random draws) are abstracted as explicit function
parameters, since the statements proved here do not depend on their values.
-/

namespace MarketRisk

attribute [local semireducible] Rat.add Rat.mul Rat.sub Rat.inv

/-- Values sorted ascending, as numpy sorts before quantile interpolation. -/
def sortQ (xs : List ℚ) : List ℚ :=
  List.insertionSort (· ≤ ·) xs

/-- Rat.floor agrees with the mathematical floor; the former is used inside
the executable definitions, the latter in proofs. -/
theorem ratFloor_eq_floor (q : ℚ) : q.floor = ⌊q⌋ := by
  rw [Rat.floor_def, Rat.floor_def']

/-- np.quantile with the default linear interpolation: with the sorted values
a[0..m-1] and h = p * (m - 1), the result is a[floor h] + (h - floor h) *
(a[floor h + 1] - a[floor h]) (the upper point falling back to the lower one
at the right end). -/
def npQuantile (xs : List ℚ) (p : ℚ) : ℚ :=
  let s := sortQ xs
  let h : ℚ := p * ((s.length : ℚ) - 1)
  let lo : ℕ := h.floor.toNat
  let frac : ℚ := h - (lo : ℚ)
  let alo := s.getD lo 0
  let ahi := s.getD (lo + 1) alo
  alo + frac * (ahi - alo)

/-- Embeds rolling_historical_var (risk/backtest.py): position i holds the NaN
sentinel for i below the window, and otherwise the left-tail quantile at
p = 1 - alpha of the slice returns[i - window : i]. -/
def rolling_historical_var (returns : List ℚ) (alpha : ℚ) (window : ℕ) :
    List (Option ℚ) :=
  (List.range returns.length).map fun i =>
    if i < window then none
    else some (npQuantile ((returns.drop (i - window)).take window) (1 - alpha))

/-- Embeds var_cvar (risk/copulas.py): VaR is the quantile of the PnL vector at
p = 1 - alpha, CVaR the mean of the tail at or below VaR, with the empty-tail
fallback returning VaR itself. -/
def var_cvar (pnl : List ℚ) (alpha : ℚ) : ℚ × ℚ :=
  let p := 1 - alpha
  let varLevel := npQuantile pnl p
  let tail := pnl.filter fun x => decide (x ≤ varLevel)
  let es := if tail.length = 0 then varLevel else tail.sum / (tail.length : ℚ)
  (varLevel, es)

/-- C1: for every return series, confidence level in (0,1) and window size,
rolling_historical_var keeps the length (index) of the input, holds the NaN
sentinel exactly at the positions before the window has filled, and at every
later position holds the (1-alpha)-quantile of the window trailing returns,
the current observation excluded. -/
theorem rolling_historical_var_spec (r : List ℚ) (alpha : ℚ) (w : ℕ)
    (hw : 1 ≤ w) (h0 : 0 < alpha) (h1 : alpha < 1) :
    (rolling_historical_var r alpha w).length = r.length ∧
    ∀ i, i < r.length →
      (((rolling_historical_var r alpha w).getD i (some 0) = none ↔ i < w) ∧
       (w ≤ i → (rolling_historical_var r alpha w).getD i (some 0)
          = some (npQuantile ((r.drop (i - w)).take w) (1 - alpha)))) := by
  constructor
  · simp [rolling_historical_var]
  · intro i hi
    have hlen : ((List.range r.length).map fun i =>
        if i < w then (none : Option ℚ)
        else some (npQuantile ((r.drop (i - w)).take w) (1 - alpha))).length
          = r.length := by simp
    have hget : (rolling_historical_var r alpha w).getD i (some 0)
        = if i < w then none
          else some (npQuantile ((r.drop (i - w)).take w) (1 - alpha)) := by
      unfold rolling_historical_var
      rw [List.getD_eq_getElem _ _ (by simpa using hi)]
      simp [hi]
    constructor
    · rw [hget]
      by_cases hcase : i < w <;> simp [hcase]
    · intro hwi
      rw [hget]
      simp [Nat.not_lt.mpr hwi]

/-- Witness for C1 at r = [3, 5], alpha = 1/2, window 1. -/
theorem rolling_historical_var_spec_witness :
    (rolling_historical_var [3, 5] (1/2) 1).getD 1 (some 0) = some 3 ∧
    (rolling_historical_var [3, 5] (1/2) 1).getD 0 (some 0) = none := by
  have h := rolling_historical_var_spec [3, 5] (1/2) 1 (by decide)
    (by norm_num) (by norm_num)
  constructor
  · have h2 := ((h.2 1 (by decide)).2) (by decide)
    rw [h2]
    decide
  · exact ((h.2 0 (by decide)).1).mpr (by decide)

/-- C7: var_cvar returns the (1-alpha)-quantile of the PnL values as VaR, and
as CVaR the mean of the values at or below that VaR, falling back to the VaR
value itself when the tail slice is empty. -/
theorem var_cvar_spec (pnl : List ℚ) (alpha : ℚ) :
    (var_cvar pnl alpha).1 = npQuantile pnl (1 - alpha) ∧
    ((pnl.filter fun x => decide (x ≤ (var_cvar pnl alpha).1)).length = 0 →
      (var_cvar pnl alpha).2 = (var_cvar pnl alpha).1) ∧
    ((pnl.filter fun x => decide (x ≤ (var_cvar pnl alpha).1)).length ≠ 0 →
      (var_cvar pnl alpha).2
        = (pnl.filter fun x => decide (x ≤ (var_cvar pnl alpha).1)).sum
          / ((pnl.filter fun x => decide (x ≤ (var_cvar pnl alpha).1)).length : ℚ)) := by
  refine ⟨rfl, ?_, ?_⟩
  · intro h
    simp only [var_cvar] at h ⊢
    simp [h]
  · intro h
    simp only [var_cvar] at h ⊢
    simp [h]

/-- Witness for C7 at pnl = [1, 2, 3, 4], alpha = 3/4: VaR is the 1/4 quantile
7/4 and CVaR the mean of the tail [1]. -/
theorem var_cvar_spec_witness :
    (var_cvar [1, 2, 3, 4] (3/4)).1 = 7/4 ∧ (var_cvar [1, 2, 3, 4] (3/4)).2 = 1 := by
  have h := var_cvar_spec [1, 2, 3, 4] (3/4)
  refine ⟨by rw [h.1]; decide, ?_⟩
  have h2 := h.2.2 (by decide)
  rw [h2]
  decide

theorem sum_le_length_mul (l : List ℚ) (c : ℚ) (h : ∀ x ∈ l, x ≤ c) :
    l.sum ≤ (l.length : ℚ) * c := by
  induction l with
  | nil => simp
  | cons a t ih =>
    have ha : a ≤ c := h a (List.mem_cons_self a t)
    have ht := ih fun x hx => h x (List.mem_cons_of_mem a hx)
    simp only [List.sum_cons, List.length_cons]
    push_cast
    linarith

/-- The linearly interpolated quantile is bounded below by the least element
of the list, for every probability in [0, 1]. -/
theorem min_mem_le_npQuantile (xs : List ℚ) (p : ℚ)
    (hne : xs ≠ []) (hp0 : 0 ≤ p) (hp1 : p ≤ 1) :
    ∃ x ∈ xs, (∀ y ∈ xs, x ≤ y) ∧ x ≤ npQuantile xs p := by
  have hperm : List.Perm (List.insertionSort (· ≤ ·) xs) xs :=
    List.perm_insertionSort _ xs
  have hsorted : List.Sorted (· ≤ ·) (sortQ xs) := List.sorted_insertionSort _ xs
  have hslen : (sortQ xs).length = xs.length := hperm.length_eq
  have hpos : 0 < (sortQ xs).length := by
    rw [hslen]
    exact List.length_pos.mpr hne
  -- the head of the sorted list
  set s := sortQ xs with hs
  have hhead_mem : s.getD 0 0 ∈ xs := by
    rw [List.getD_eq_getElem s 0 hpos]
    exact hperm.mem_iff.mp (List.getElem_mem hpos)
  refine ⟨s.getD 0 0, hhead_mem, ?_, ?_⟩
  · intro y hy
    have hy' : y ∈ s := hperm.mem_iff.mpr hy
    obtain ⟨j, hj, rfl⟩ := List.mem_iff_getElem.mp hy'
    rw [List.getD_eq_getElem s 0 hpos]
    have hab : (⟨0, hpos⟩ : Fin s.length) ≤ (⟨j, hj⟩ : Fin s.length) :=
      Fin.mk_le_mk.mpr (Nat.zero_le _)
    have := hsorted.rel_get_of_le hab
    simpa using this
  · -- unfold the quantile and bound each piece
    show s.getD 0 0 ≤ npQuantile xs p
    rw [npQuantile]
    simp only [← hs]
    set m := s.length with hm
    set h : ℚ := p * ((m : ℚ) - 1) with hh
    have hm1 : (1 : ℚ) ≤ (m : ℚ) := by exact_mod_cast hpos
    have hh0 : 0 ≤ h := mul_nonneg hp0 (by linarith)
    have hh1 : h ≤ (m : ℚ) - 1 := by
      calc h ≤ 1 * ((m : ℚ) - 1) := by
              apply mul_le_mul_of_nonneg_right hp1 (by linarith)
        _ = (m : ℚ) - 1 := one_mul _
    have hfl0 : (0 : ℤ) ≤ h.floor := by
      rw [ratFloor_eq_floor]
      exact Int.floor_nonneg.mpr hh0
    have hcast : ((h.floor.toNat : ℕ) : ℚ) = ((h.floor : ℤ) : ℚ) := by
      exact_mod_cast Int.toNat_of_nonneg hfl0
    have hfloor_le : ((h.floor : ℤ) : ℚ) ≤ h := by
      rw [ratFloor_eq_floor]
      exact Int.floor_le h
    have hfrac0 : 0 ≤ h - (h.floor.toNat : ℚ) := by
      rw [hcast]
      linarith
    have hlo_lt : h.floor.toNat < m := by
      have h1 : h.floor ≤ (m : ℤ) - 1 := by
        rw [ratFloor_eq_floor]
        calc ⌊h⌋ ≤ ⌊(m : ℚ) - 1⌋ := Int.floor_le_floor hh1
          _ = (m : ℤ) - 1 := by
              rw [show ((m : ℚ) - 1) = (((m : ℤ) - 1 : ℤ) : ℚ) by push_cast; ring]
              exact Int.floor_intCast _
      omega
    have halo : s.getD h.floor.toNat 0 = s[h.floor.toNat] :=
      List.getD_eq_getElem s 0 hlo_lt
    have hhead_le_alo : s.getD 0 0 ≤ s.getD h.floor.toNat 0 := by
      rw [halo, List.getD_eq_getElem s 0 hpos]
      have hab : (⟨0, hpos⟩ : Fin s.length) ≤ (⟨h.floor.toNat, hlo_lt⟩ : Fin s.length) :=
        Fin.mk_le_mk.mpr (Nat.zero_le _)
      have := hsorted.rel_get_of_le hab
      simpa using this
    have hahi : s.getD h.floor.toNat 0
        ≤ s.getD (h.floor.toNat + 1) (s.getD h.floor.toNat 0) := by
      by_cases hcase : h.floor.toNat + 1 < m
      · rw [List.getD_eq_getElem s _ hcase, halo]
        have hab : (⟨h.floor.toNat, hlo_lt⟩ : Fin s.length)
            ≤ (⟨h.floor.toNat + 1, hcase⟩ : Fin s.length) :=
          Fin.mk_le_mk.mpr (Nat.le_succ _)
        have := hsorted.rel_get_of_le hab
        simpa using this
      · have hdef : s.getD (h.floor.toNat + 1) (s.getD h.floor.toNat 0)
            = s.getD h.floor.toNat 0 :=
          List.getD_eq_default s _ (by omega)
        rw [hdef]
    have hmul : 0 ≤ (h - (h.floor.toNat : ℚ))
        * (s.getD (h.floor.toNat + 1) (s.getD h.floor.toNat 0)
            - s.getD h.floor.toNat 0) :=
      mul_nonneg hfrac0 (by linarith)
    linarith

/-- C10: for every non-empty PnL vector and alpha in (0,1), the minimum of the
vector lies at or below the interpolated (1-alpha)-quantile, so the tail slice
of var_cvar is never empty, the empty-tail fallback is unreachable, and the
returned CVaR is at most the returned VaR. -/
theorem var_cvar_cvar_le_var (pnl : List ℚ) (alpha : ℚ)
    (hne : pnl ≠ []) (h0 : 0 < alpha) (h1 : alpha < 1) :
    (∃ x ∈ pnl, (∀ y ∈ pnl, x ≤ y) ∧ x ≤ (var_cvar pnl alpha).1) ∧
    (pnl.filter fun x => decide (x ≤ (var_cvar pnl alpha).1)) ≠ [] ∧
    (var_cvar pnl alpha).2
      = (pnl.filter fun x => decide (x ≤ (var_cvar pnl alpha).1)).sum
        / ((pnl.filter fun x => decide (x ≤ (var_cvar pnl alpha).1)).length : ℚ) ∧
    (var_cvar pnl alpha).2 ≤ (var_cvar pnl alpha).1 := by
  have hq : (var_cvar pnl alpha).1 = npQuantile pnl (1 - alpha) := rfl
  obtain ⟨x, hmem, hmin, hxq⟩ :=
    min_mem_le_npQuantile pnl (1 - alpha) hne (by linarith) (by linarith)
  set q := npQuantile pnl (1 - alpha) with hqdef
  set tail := pnl.filter fun y => decide (y ≤ q) with htail
  have hxtail : x ∈ tail := by
    rw [htail]
    exact List.mem_filter.mpr ⟨hmem, by simpa using hxq⟩
  have htail_ne : tail ≠ [] := fun hnil => by simp [hnil] at hxtail
  have htail_len : tail.length ≠ 0 := fun hlen => htail_ne (List.length_eq_zero.mp hlen)
  have hes : (var_cvar pnl alpha).2 = tail.sum / (tail.length : ℚ) := by
    simp only [var_cvar, htail, hqdef]
    simp [htail_len]
  have hlenpos : (0 : ℚ) < (tail.length : ℚ) := by
    have : 0 < tail.length := Nat.pos_of_ne_zero htail_len
    exact_mod_cast this
  have htail_le : ∀ y ∈ tail, y ≤ q := by
    intro y hy
    have := (List.mem_filter.mp (htail ▸ hy)).2
    simpa using this
  have hsum : tail.sum ≤ (tail.length : ℚ) * q := sum_le_length_mul tail q htail_le
  refine ⟨⟨x, hmem, hmin, hxq⟩, htail_ne, hes, ?_⟩
  rw [hes, hq]
  rw [div_le_iff₀ hlenpos]
  calc tail.sum ≤ (tail.length : ℚ) * q := hsum
    _ = q * (tail.length : ℚ) := mul_comm _ _

/-- Witness for C10 at pnl = [2, 4], alpha = 1/2: VaR is 3, CVaR is 2, and
CVaR is at most VaR. -/
theorem var_cvar_cvar_le_var_witness :
    (var_cvar [2, 4] (1/2)).1 = 3 ∧ (var_cvar [2, 4] (1/2)).2 = 2 ∧
    (var_cvar [2, 4] (1/2)).2 ≤ (var_cvar [2, 4] (1/2)).1 := by
  refine ⟨by decide, by decide, ?_⟩
  exact (var_cvar_cvar_le_var [2, 4] (1/2) (by decide) (by norm_num)
    (by norm_num)).2.2.2

/-- Sample mean of one column over the given rows (np.cov internals). -/
def colMean {n : ℕ} (rows : List (Fin n → ℚ)) (j : Fin n) : ℚ :=
  (rows.map fun r => r j).sum / (rows.length : ℚ)

/-- Bessel-corrected sample covariance of the given rows, as
np.cov(R.T, ddof=1) computes it. -/
def sampleCov {n : ℕ} (rows : List (Fin n → ℚ)) : Fin n → Fin n → ℚ :=
  fun i j =>
    (rows.map fun r => (r i - colMean rows i) * (r j - colMean rows j)).sum
      / ((rows.length : ℚ) - 1)

/-- One EWMA update S := lam * S + (1 - lam) * (r times r transposed). -/
def ewmaStep {n : ℕ} (lam : ℚ) (S : Fin n → Fin n → ℚ) (r : Fin n → ℚ) :
    Fin n → Fin n → ℚ :=
  fun i j => lam * S i j + (1 - lam) * (r i * r j)

/-- Embeds compute_ewma_cov (risk/ewma.py): fewer than 2 rows raises a
ValueError (none); otherwise the recursion runs over the rows after the seed
window of min(30, T) rows, starting from their Bessel-corrected sample
covariance, and the matrix at the final date is returned. -/
def compute_ewma_cov {n : ℕ} (rows : List (Fin n → ℚ)) (lam : ℚ) :
    Option (Fin n → Fin n → ℚ) :=
  if rows.length < 2 then none
  else
    some ((rows.drop (min 30 rows.length)).foldl (ewmaStep lam)
      (sampleCov (rows.take (min 30 rows.length))))

/-- The covariance recurrence exactly as the spec words it: the seed is the
sample covariance of the first `init` rows, and each later step applies the
decay update once to the row at position init + k. -/
def ewmaRec {n : ℕ} (rows : List (Fin n → ℚ)) (lam : ℚ) (init : ℕ) :
    ℕ → (Fin n → Fin n → ℚ)
  | 0 => sampleCov (rows.take init)
  | k + 1 => ewmaStep lam (ewmaRec rows lam init k)
      (rows.getD (init + k) (fun _ => 0))

theorem foldl_take_eq_ewmaRec {n : ℕ} (rows : List (Fin n → ℚ)) (lam : ℚ)
    (init : ℕ) (k : ℕ) (hk : init + k ≤ rows.length) :
    ((rows.drop init).take k).foldl (ewmaStep lam) (sampleCov (rows.take init))
      = ewmaRec rows lam init k := by
  induction k with
  | zero => simp [ewmaRec]
  | succ k ih =>
    have hk' : init + k ≤ rows.length := by omega
    have hidx : init + k < rows.length := by omega
    have hdropidx : k < (rows.drop init).length := by
      rw [List.length_drop]
      omega
    have hgetdrop : (rows.drop init)[k]? = some (rows[init + k]) := by
      rw [List.getElem?_drop]
      exact List.getElem?_eq_getElem hidx
    have htake : (rows.drop init).take (k + 1)
        = (rows.drop init).take k ++ [rows[init + k]] := by
      rw [List.take_succ, hgetdrop]
      rfl
    rw [htake, List.foldl_append, ih hk']
    have hgetD : rows.getD (init + k) (fun _ => 0) = rows[init + k] :=
      List.getD_eq_getElem rows _ hidx
    simp only [List.foldl_cons, List.foldl_nil]
    rw [show ewmaRec rows lam init (k + 1)
        = ewmaStep lam (ewmaRec rows lam init k)
            (rows.getD (init + k) fun _ => 0) from rfl, hgetD]

/-- C6: for at least 2 rows, compute_ewma_cov returns exactly the matrix of
the spec recurrence (seed = Bessel sample covariance of the first min(30, T)
rows, then one decay update per subsequent row, value taken at the final
date); for fewer than 2 rows it raises instead of returning a value. -/
theorem compute_ewma_cov_spec {n : ℕ} (rows : List (Fin n → ℚ)) (lam : ℚ) :
    (2 ≤ rows.length →
      compute_ewma_cov rows lam
        = some (ewmaRec rows lam (min 30 rows.length)
            (rows.length - min 30 rows.length))) ∧
    (rows.length < 2 → compute_ewma_cov rows lam = none) := by
  constructor
  · intro h2
    have hnlt : ¬ rows.length < 2 := by omega
    have hinit : min 30 rows.length ≤ rows.length := min_le_right _ _
    have hlen : (rows.drop (min 30 rows.length)).length
        = rows.length - min 30 rows.length := List.length_drop _ _
    have htake : (rows.drop (min 30 rows.length)).take
          (rows.length - min 30 rows.length) = rows.drop (min 30 rows.length) := by
      rw [← hlen]
      exact List.take_length _
    rw [compute_ewma_cov, if_neg hnlt, ← foldl_take_eq_ewmaRec rows lam _ _ (by omega),
      htake]
  · intro h2
    simp [compute_ewma_cov, h2]

/-- Witness for C6 on a 3-row single-asset panel: the seed window swallows all
rows, and the returned matrix is the sample covariance 4 of [2, 4, 6]. -/
theorem compute_ewma_cov_spec_witness :
    compute_ewma_cov [fun _ : Fin 1 => (2 : ℚ), fun _ => 4, fun _ => 6] (94/100)
      = some (ewmaRec [fun _ : Fin 1 => (2 : ℚ), fun _ => 4, fun _ => 6]
          (94/100) 3 0) ∧
    ewmaRec [fun _ : Fin 1 => (2 : ℚ), fun _ => 4, fun _ => 6] (94/100) 3 0 0 0
      = 4 := by
  constructor
  · have h := (compute_ewma_cov_spec
      [fun _ : Fin 1 => (2 : ℚ), fun _ => 4, fun _ => 6] (94/100)).1 (by decide)
    simpa using h
  · decide

/-- np.clip(x, lo, hi) for lo at most hi. -/
def clipQ (x lo hi : ℚ) : ℚ := max lo (min x hi)

/-- The epsilon guarding the clipped probabilities away from 0 and 1 before
the logarithms (eps = 1e-10 in backtest.py and backtest_stats.py). -/
def clipEps : ℚ := 1 / 10 ^ 10

/-- Embeds the LR computation shared by _kupiec_pof (risk/backtest.py) and
kupiec_pof_test (risk/backtest_stats.py), whose formulas are identical.
`lg` abstracts np.log; every value it is applied to is exactly the one the
code passes to np.log. -/
def kupiec_LR (lg : ℚ → ℚ) (alpha : ℚ) (n x : ℕ) : ℚ :=
  let p0 := 1 - alpha
  let piC := clipQ ((x : ℚ) / (n : ℚ)) clipEps (1 - clipEps)
  let logL0 := (x : ℚ) * lg p0 + ((n : ℚ) - (x : ℚ)) * lg (1 - p0)
  let logL1 := (x : ℚ) * lg piC + ((n : ℚ) - (x : ℚ)) * lg (1 - piC)
  let lr := -2 * (logL0 - logL1)
  lr

/-- p_value = 1 - chi2.cdf(LR, df=1); `cdf` abstracts the chi-squared CDF. -/
def kupiec_pvalue (lg cdf : ℚ → ℚ) (alpha : ℚ) (n x : ℕ) : ℚ :=
  1 - cdf (kupiec_LR lg alpha n x)

/-- C4: the Kupiec POF statistic equals the likelihood-ratio formula of the
spec with pi_hat = x/n clipped into [eps, 1-eps] before the logarithms; and
when x/n equals the nominal rate 1 - alpha exactly (and lies inside the clip
interval), the statistic is exactly 0 and the p-value is 1 (the chi-squared
CDF vanishing at 0). -/
theorem kupiec_pof_spec (lg cdf : ℚ → ℚ) (alpha : ℚ) (n x : ℕ) (hn : n ≠ 0) :
    kupiec_LR lg alpha n x
      = -2 * ((x : ℚ) * lg (1 - alpha) + ((n : ℚ) - (x : ℚ)) * lg alpha
          - (x : ℚ) * lg (clipQ ((x : ℚ) / (n : ℚ)) clipEps (1 - clipEps))
          - ((n : ℚ) - (x : ℚ))
              * lg (1 - clipQ ((x : ℚ) / (n : ℚ)) clipEps (1 - clipEps))) ∧
    ((x : ℚ) / (n : ℚ) = 1 - alpha →
      clipEps ≤ (x : ℚ) / (n : ℚ) → (x : ℚ) / (n : ℚ) ≤ 1 - clipEps →
      kupiec_LR lg alpha n x = 0 ∧
        (cdf 0 = 0 → kupiec_pvalue lg cdf alpha n x = 1)) := by
  constructor
  · simp only [kupiec_LR]
    have hsub : (1 : ℚ) - (1 - alpha) = alpha := by ring
    rw [hsub]
    ring
  · intro heq hlo hhi
    have hclip : clipQ ((x : ℚ) / (n : ℚ)) clipEps (1 - clipEps)
        = (x : ℚ) / (n : ℚ) := by
      rw [clipQ, min_eq_left hhi, max_eq_right hlo]
    have hLR : kupiec_LR lg alpha n x = 0 := by
      simp only [kupiec_LR]
      rw [hclip, heq]
      ring
    refine ⟨hLR, fun hcdf => ?_⟩
    rw [kupiec_pvalue, hLR, hcdf]
    ring

/-- Witness for C4 at n = 100, x = 1, alpha = 99/100: the empirical rate 1/100
equals the nominal rate, the statistic is 0 and the p-value 1. -/
theorem kupiec_pof_spec_witness :
    kupiec_LR id (99/100) 100 1 = 0 ∧
    kupiec_pvalue id (fun _ => 0) (99/100) 100 1 = 1 := by
  have h := (kupiec_pof_spec id (fun _ => 0) (99/100) 100 1 (by decide)).2
    (by norm_num) (by norm_num [clipEps]) (by norm_num [clipEps])
  exact ⟨h.1, h.2 rfl⟩

/-- Transition count over consecutive exception indicators: the number of
positions t with b[t-1] = i and b[t] = j. -/
def countTrans (b : List Bool) (i j : Bool) : ℕ :=
  ((b.zip b.tail).filter fun pq => decide (pq.1 = i ∧ pq.2 = j)).length

theorem countTrans_short (b : List Bool) (hb : b.length < 2) (i j : Bool) :
    countTrans b i j = 0 := by
  cases b with
  | nil => rfl
  | cons a t =>
    cases t with
    | nil => rfl
    | cons c u =>
      simp at hb
      exact absurd hb (by omega)

/-- Result record of _christoffersen_ind (risk/backtest.py); none is the NaN
sentinel. -/
structure IndResult where
  n00 : ℕ
  n01 : ℕ
  n10 : ℕ
  n11 : ℕ
  pi01 : Option ℚ
  pi11 : Option ℚ
  LR_ind : Option ℚ
  p_value : Option ℚ
deriving DecidableEq

/-- Embeds _christoffersen_ind (risk/backtest.py). `lg` abstracts np.log and
`cdf1` the chi-squared CDF with one degree of freedom; every value they are
applied to is the one the code passes. -/
def christoffersen_ind (lg cdf1 : ℚ → ℚ) (b : List Bool) : IndResult :=
  if b.length < 2 then ⟨0, 0, 0, 0, none, none, none, none⟩
  else
    let n00 := countTrans b false false
    let n01 := countTrans b false true
    let n10 := countTrans b true false
    let n11 := countTrans b true true
    if n00 + n01 = 0 ∨ n10 + n11 = 0 then
      ⟨n00, n01, n10, n11, none, none, none, none⟩
    else
      let pi01 : ℚ := (n01 : ℚ) / ((n00 : ℚ) + (n01 : ℚ))
      let pi11 : ℚ := (n11 : ℚ) / ((n10 : ℚ) + (n11 : ℚ))
      let n0 : ℚ := (n00 : ℚ) + (n01 : ℚ)
      let n1 : ℚ := (n10 : ℚ) + (n11 : ℚ)
      let piAll : ℚ := ((n01 : ℚ) + (n11 : ℚ)) / (n0 + n1)
      let pi01c := clipQ pi01 clipEps (1 - clipEps)
      let pi11c := clipQ pi11 clipEps (1 - clipEps)
      let piAllc := clipQ piAll clipEps (1 - clipEps)
      let logLr := n0 * lg (1 - piAllc) + n1 * lg piAllc
      let logLu := (n00 : ℚ) * lg (1 - pi01c) + (n01 : ℚ) * lg pi01c
        + (n10 : ℚ) * lg (1 - pi11c) + (n11 : ℚ) * lg pi11c
      let lr := -2 * (logLr - logLu)
      ⟨n00, n01, n10, n11, some pi01, some pi11, some lr, some (1 - cdf1 lr)⟩

/-- Result record of _kupiec_pof (risk/backtest.py), NaN fields as none. -/
structure PofResult where
  n : ℕ
  x : ℕ
  pi_hat : Option ℚ
  LR_pof : Option ℚ
  p_value : Option ℚ
deriving DecidableEq

/-- Embeds _kupiec_pof (risk/backtest.py): the empty vector returns the NaN
record; otherwise the LR of kupiec_LR together with its p-value. -/
def kupiec_pof (lg cdf1 : ℚ → ℚ) (alpha : ℚ) (b : List Bool) : PofResult :=
  if b.length = 0 then ⟨0, 0, none, none, none⟩
  else
    ⟨b.length, b.count true, some ((b.count true : ℚ) / (b.length : ℚ)),
      some (kupiec_LR lg alpha b.length (b.count true)),
      some (kupiec_pvalue lg cdf1 alpha b.length (b.count true))⟩

/-- Result record of _christoffersen_cc (risk/backtest.py). -/
structure CCResult where
  LR_cc : Option ℚ
  p_value : Option ℚ
deriving DecidableEq

/-- Embeds _christoffersen_cc (risk/backtest.py): LR_cc = LR_pof + LR_ind.
The explicit isnan branch makes both outputs NaN when LR_ind is NaN; when
LR_pof is NaN the same happens through IEEE arithmetic (NaN + x = NaN and
chi2.cdf(NaN) = NaN), modelled by the inner match. `cdf2` abstracts the
chi-squared CDF with two degrees of freedom. -/
def christoffersen_cc (lg cdf1 cdf2 : ℚ → ℚ) (alpha : ℚ) (b : List Bool) :
    CCResult :=
  let pof := kupiec_pof lg cdf1 alpha b
  let ind := christoffersen_ind lg cdf1 b
  match ind.LR_ind with
  | none => ⟨none, none⟩
  | some li =>
    match pof.LR_pof with
    | none => ⟨none, none⟩
    | some lp => ⟨some (lp + li), some (1 - cdf2 (lp + li))⟩

/-- C5: when one exception state never occurs as a predecessor, the
independence statistic and its p-value are the NaN sentinel while the four
transition counts stay populated with their true values; the conditional
coverage statistic is the sum LR_pof + LR_ind when both are defined, and it
and its p-value are NaN whenever either component is NaN. -/
theorem christoffersen_degenerate_spec (lg cdf1 cdf2 : ℚ → ℚ) (alpha : ℚ)
    (b : List Bool)
    (h : countTrans b false false + countTrans b false true = 0 ∨
         countTrans b true false + countTrans b true true = 0) :
    ((christoffersen_ind lg cdf1 b).LR_ind = none ∧
     (christoffersen_ind lg cdf1 b).p_value = none) ∧
    ((christoffersen_ind lg cdf1 b).n00 = countTrans b false false ∧
     (christoffersen_ind lg cdf1 b).n01 = countTrans b false true ∧
     (christoffersen_ind lg cdf1 b).n10 = countTrans b true false ∧
     (christoffersen_ind lg cdf1 b).n11 = countTrans b true true) ∧
    ((christoffersen_cc lg cdf1 cdf2 alpha b).LR_cc = none ∧
     (christoffersen_cc lg cdf1 cdf2 alpha b).p_value = none) ∧
    (∀ c : List Bool,
      ((christoffersen_ind lg cdf1 c).LR_ind = none ∨
       (kupiec_pof lg cdf1 alpha c).LR_pof = none) →
      (christoffersen_cc lg cdf1 cdf2 alpha c).LR_cc = none ∧
      (christoffersen_cc lg cdf1 cdf2 alpha c).p_value = none) ∧
    (∀ c : List Bool, ∀ lp li : ℚ,
      (kupiec_pof lg cdf1 alpha c).LR_pof = some lp →
      (christoffersen_ind lg cdf1 c).LR_ind = some li →
      (christoffersen_cc lg cdf1 cdf2 alpha c).LR_cc = some (lp + li)) := by
  have hind : christoffersen_ind lg cdf1 b
      = ⟨countTrans b false false, countTrans b false true,
         countTrans b true false, countTrans b true true,
         none, none, none, none⟩ := by
    by_cases hb : b.length < 2
    · have hz := countTrans_short b hb
      simp [christoffersen_ind, hb, hz false false, hz false true,
        hz true false, hz true true]
    · simp only [christoffersen_ind]
      rw [if_neg hb, if_pos h]
  refine ⟨?_, ?_, ?_, ?_, ?_⟩
  · rw [hind]
    exact ⟨rfl, rfl⟩
  · rw [hind]
    exact ⟨rfl, rfl, rfl, rfl⟩
  · have hlr : (christoffersen_ind lg cdf1 b).LR_ind = none := by rw [hind]
    constructor <;> simp [christoffersen_cc, hlr]
  · intro c hc
    rcases hlr : (christoffersen_ind lg cdf1 c).LR_ind with _ | li
    · constructor <;> simp [christoffersen_cc, hlr]
    · rcases hpof : (kupiec_pof lg cdf1 alpha c).LR_pof with _ | lp
      · constructor <;> simp [christoffersen_cc, hlr, hpof]
      · rcases hc with hc | hc
        · rw [hlr] at hc
          exact absurd hc (by simp)
        · rw [hpof] at hc
          exact absurd hc (by simp)
  · intro c lp li hpof hlr
    simp [christoffersen_cc, hlr, hpof]

/-- Witness for C5 on a breach vector with zero exceptions: counts populated
(n00 = 2), statistics NaN. -/
theorem christoffersen_degenerate_spec_witness :
    (christoffersen_ind id id [false, false, false]).LR_ind = none ∧
    (christoffersen_ind id id [false, false, false]).n00 = 2 ∧
    (christoffersen_cc id id id (99/100) [false, false, false]).LR_cc = none := by
  have h := christoffersen_degenerate_spec id id id (99/100)
    [false, false, false] (by decide)
  refine ⟨h.1.1, ?_, h.2.2.1.1⟩
  rw [h.2.1.1]
  decide

/-- Bessel-corrected sample variance, the square of pandas Series.std(). -/
def sampleVarQ (y : List ℚ) : ℚ :=
  (y.map fun v => (v - y.sum / (y.length : ℚ)) ^ 2).sum / ((y.length : ℚ) - 1)

/-- The magnitude-dependent scale chosen by garch_fit (risk/garch.py). The
code compares the sample standard deviation with 1e-4 and 1e-3; on
nonnegative values those comparisons agree with comparing the variance with
1e-8 and 1e-6, which keeps the embedding rational. With fewer than 2 points
the pandas std is NaN, both comparisons are False and the scale is 1. -/
def garchScale (y : List ℚ) : ℚ :=
  if y.length < 2 then 1
  else if sampleVarQ y < 1 / 10 ^ 8 then 1000
  else if sampleVarQ y < 1 / 10 ^ 6 then 100
  else 1

/-- Embeds the control flow of garch_fit (risk/garch.py). The library chain
(select_lags, arch_model(...).fit, forecast, sqrt of the forecast variance)
is abstracted as `fit`, mapping the scaled series to the fitted
(nu, mean_s, std_s) or to none for a raised exception. garch_fit rescales the
outputs; the source has no other branch: no history-length check and no
recovery of a failed fit. -/
def garch_fit (fit : List ℚ → Option (ℚ × ℚ × ℚ)) (series : List ℚ) :
    Option (ℚ × ℚ × ℚ) :=
  let scale := garchScale series
  match fit (series.map fun v => v * scale) with
  | none => none
  | some (nu, mean_s, std_s) => some (nu, mean_s / scale, std_s / scale)

/-- Embeds df_ret.apply(garch_fit) in portfolio_risk_summary
(risk/summary.py): pandas apply runs the fit column by column and re-raises
any exception, aborting the whole summary. -/
def garchApply (fit : List ℚ → Option (ℚ × ℚ × ℚ)) (assets : List (List ℚ)) :
    Option (List (ℚ × ℚ × ℚ)) :=
  assets.mapM (garch_fit fit)

/-- A 10-observation return series, well below the 50-observation threshold
the spec prescribes for the fallback. -/
def shortSeries : List ℚ :=
  [1/100, -1/100, 1/100, -1/100, 1/100, -1/100, 1/100, -1/100, 1/100, -1/100]

/-- C2 (divergence witness): garch_fit fits unconditionally. On a
10-observation series it still invokes the optimizer; a raised optimizer
failure propagates as a failure instead of a (30, mean, std) fallback, the
portfolio-level apply aborts every remaining asset with it, and a converged
fit on the same short series returns the fitted nu (here 7), never the
generic 30. -/
theorem garch_fit_no_fallback :
    garch_fit (fun _ => none) shortSeries = none ∧
    garchApply (fun _ => none) [shortSeries, shortSeries] = none ∧
    garch_fit (fun _ => some (7, 1/1000, 2/1000)) shortSeries
      = some (7, 1/1000, 2/1000) := by
  refine ⟨rfl, rfl, ?_⟩
  decide

/-- The IEEE double values reached by the weight-normalisation code paths:
finite value, the two infinities, or NaN. -/
inductive FVal where
  | fin (q : ℚ)
  | pinf
  | ninf
  | nan
deriving DecidableEq

/-- IEEE addition on the values above. -/
def FVal.add : FVal → FVal → FVal
  | nan, _ => nan
  | _, nan => nan
  | pinf, ninf => nan
  | ninf, pinf => nan
  | pinf, _ => pinf
  | _, pinf => pinf
  | ninf, _ => ninf
  | _, ninf => ninf
  | fin a, fin b => fin (a + b)

/-- IEEE division on the values above: a nonzero finite value divided by zero
is a signed infinity, 0/0 is NaN; no case is an exception. -/
def FVal.div : FVal → FVal → FVal
  | nan, _ => nan
  | _, nan => nan
  | fin a, fin b =>
      if b = 0 then (if a = 0 then nan else if 0 < a then pinf else ninf)
      else fin (a / b)
  | fin _, pinf => fin 0
  | fin _, ninf => fin 0
  | pinf, fin b => if 0 ≤ b then pinf else ninf
  | ninf, fin b => if 0 ≤ b then ninf else pinf
  | pinf, pinf => nan
  | pinf, ninf => nan
  | ninf, pinf => nan
  | ninf, ninf => nan

/-- The float sum taken before normalising. -/
def fsum (w : List FVal) : FVal := w.foldl FVal.add (FVal.fin 0)

/-- Embeds the normalisation w = w / w.sum() performed by
portfolio_risk_summary (risk/summary.py line 82, after reindex and fillna)
and by mc_portfolio_pnl (risk/copulas.py line 52, after reindex): an
elementwise float division by the float sum, with no zero-sum guard in
either caller. -/
def normalizeBySum (w : List FVal) : List FVal :=
  w.map fun v => FVal.div v (fsum w)

/-- C3 (divergence witness): with aligned weights summing exactly to zero,
both weight-consuming normalisations divide by float zero and deliver signed
infinities and NaN silently; no error is raised. -/
theorem zero_weight_sum_silent :
    fsum [FVal.fin 1, FVal.fin (-1), FVal.fin 0] = FVal.fin 0 ∧
    normalizeBySum [FVal.fin 1, FVal.fin (-1), FVal.fin 0]
      = [FVal.pinf, FVal.ninf, FVal.nan] := by
  constructor <;> decide

/-- The candidate grid 2..99 of estimate_df_ks (risk/student_t.py):
min_df = 2 is included. -/
def dfCandidates : List ℕ := List.range' 2 98

/-- Embeds the selection loop of estimate_df_ks (risk/student_t.py): d[nu]
is the KS statistic of a fresh random Student-t sample against the
standardized series, abstracted as `ks` since it depends on the seeded
generator; Python min(d, key=d.get) keeps the first key attaining the
minimal value, i.e. the smallest nu on ties. -/
def estimate_df_ks (ks : ℕ → ℚ) : ℕ :=
  (dfCandidates.drop 1).foldl (fun best nu => if ks nu < ks best then nu else best) 2

/-- Embeds es_factor_t (risk/student_t.py) with the scipy t.ppf and t.pdf
values at (alpha, df) abstracted as the inputs q and pdf. -/
def es_factor_t (q pdf alpha df : ℚ) : ℚ :=
  -((df + q ^ 2) / (df - 1)) * (pdf / alpha)

/-- Per-asset ES exactly as compute_student_t_stats forms it: mean + std
times the ES factor. A total function into the rationals: no branch signals
df at or below 2. -/
def studentES (mu sigma q pdf alpha df : ℚ) : ℚ :=
  mu + sigma * es_factor_t q pdf alpha df

set_option maxRecDepth 4000 in
/-- C8 (divergence witness): 2 is a legitimate candidate of the df search and
is returned whenever its KS statistic is minimal (shown for a monotone
statistic); the downstream ES at df = 2 is then an ordinary finite rational
(-12/5 here), produced with no explicit degeneracy signal anywhere. -/
theorem df_search_no_guard :
    (2 : ℕ) ∈ dfCandidates ∧
    estimate_df_ks (fun nu => (nu : ℚ)) = 2 ∧
    studentES 0 1 (-2) (1/50) (1/20) 2 = -12/5 := by
  refine ⟨by decide, by decide, by norm_num [studentES, es_factor_t]⟩

/-- IEEE round-half-even on a rational, as np.round behaves on exactly
representable values. -/
def roundHalfEven (q : ℚ) : ℤ :=
  let f := q - (q.floor : ℚ)
  if f < 1/2 then q.floor
  else if 1/2 < f then q.floor + 1
  else if q.floor % 2 = 0 then q.floor else q.floor + 1

/-- Traffic-light zones; the code returns strings. -/
inductive Zone where
  | green
  | yellow
  | red
  | undefined
deriving DecidableEq

/-- Embeds basel_thresholds_99 (risk/backtest.py): none models the
(None, None) return for n = 0 or n < 80; otherwise the thresholds are
np.round of the linearly scaled 250-day values, clamped nonnegative and
monotone. -/
def basel_thresholds_99 (n : ℕ) : Option (ℤ × ℤ) :=
  if n = 0 then none
  else if n < 80 then none
  else
    let g := roundHalfEven (4 * (n : ℚ) / 250)
    let y := roundHalfEven (9 * (n : ℚ) / 250)
    some (max g 0, max y (max g 0))

/-- Embeds basel_traffic_light_99 (risk/backtest.py). -/
def basel_traffic_light_99 (n x : ℕ) : Zone :=
  if n = 0 then Zone.undefined
  else
    match basel_thresholds_99 n with
    | none => Zone.undefined
    | some (g, y) =>
      if (x : ℤ) ≤ g then Zone.green
      else if (x : ℤ) ≤ y then Zone.yellow
      else Zone.red

/-- Embeds basel_traffic_light_99 of risk/backtest_stats.py: floor-scaled
thresholds with a 1e-9 nudge and no minimum-sample guard beyond n > 0. -/
def basel_traffic_light_99_stats (n x : ℕ) : Zone :=
  if n = 0 then Zone.undefined
  else
    let g := (4 / 250 * (n : ℚ) + 1 / 10 ^ 9).floor
    let y := (9 / 250 * (n : ℚ) + 1 / 10 ^ 9).floor
    if (x : ℤ) ≤ g then Zone.green
    else if (x : ℤ) ≤ y then Zone.yellow
    else Zone.red

/-- C9 counterexample: at n = 100, x = 2 the backtest.py classifier returns
green although 2 exceeds 4/250 * 100 = 1.6, which the claim puts in yellow;
and at n = 10 the backtest_stats.py classifier returns a green zone although
the claim requires undefined below the minimum sample size. -/
theorem basel_traffic_light_counterexample :
    basel_traffic_light_99 100 2 = Zone.green ∧ 4 * (100 : ℚ) / 250 < 2 ∧
    basel_traffic_light_99_stats 10 0 = Zone.green := by
  refine ⟨by decide, by norm_num, by decide⟩

theorem le_floor_nudge_iff_4 (n x : ℕ) :
    (x : ℤ) ≤ (4 / 250 * (n : ℚ) + 1 / 10 ^ 9).floor ↔ (x : ℚ) ≤ 4 * n / 250 := by
  rw [ratFloor_eq_floor, Int.le_floor]
  constructor
  · intro hx
    have h1 : (250 : ℚ) * x ≤ 4 * n + 250 / 10 ^ 9 := by
      push_cast at hx ⊢
      linarith
    have h2 : (250 : ℤ) * x < 4 * n + 1 := by
      have h2q : (250 : ℚ) * x < 4 * n + 1 := by
        have : (250 : ℚ) / 10 ^ 9 < 1 := by norm_num
        linarith
      exact_mod_cast h2q
    have h3 : (250 : ℤ) * x ≤ 4 * n := by omega
    have h4 : (250 : ℚ) * x ≤ 4 * n := by exact_mod_cast h3
    linarith
  · intro hx
    push_cast
    have hnudge : (0 : ℚ) < 1 / 10 ^ 9 := by norm_num
    linarith

theorem le_floor_nudge_iff_9 (n x : ℕ) :
    (x : ℤ) ≤ (9 / 250 * (n : ℚ) + 1 / 10 ^ 9).floor ↔ (x : ℚ) ≤ 9 * n / 250 := by
  rw [ratFloor_eq_floor, Int.le_floor]
  constructor
  · intro hx
    have h1 : (250 : ℚ) * x ≤ 9 * n + 250 / 10 ^ 9 := by
      push_cast at hx ⊢
      linarith
    have h2 : (250 : ℤ) * x < 9 * n + 1 := by
      have h2q : (250 : ℚ) * x < 9 * n + 1 := by
        have : (250 : ℚ) / 10 ^ 9 < 1 := by norm_num
        linarith
      exact_mod_cast h2q
    have h3 : (250 : ℤ) * x ≤ 9 * n := by omega
    have h4 : (250 : ℚ) * x ≤ 9 * n := by exact_mod_cast h3
    linarith
  · intro hx
    push_cast
    have hnudge : (0 : ℚ) < 1 / 10 ^ 9 := by norm_num
    linarith

/-- C9 amended: the backtest_stats.py classifier realizes the exact linear
thresholds (green iff x at most 4/250 * n, yellow iff strictly between, red
iff above 9/250 * n) for every n of at least 1, with no minimum-sample
guard; the backtest.py classifier is undefined below 80 observations and
above that uses nearest-integer (half-even) rounded thresholds, clamped
nonnegative and monotone, instead of the exact linear ones. -/
theorem basel_traffic_light_amended (n x : ℕ) :
    (1 ≤ n →
      (basel_traffic_light_99_stats n x = Zone.green ↔ (x : ℚ) ≤ 4 * n / 250) ∧
      (basel_traffic_light_99_stats n x = Zone.yellow ↔
        (4 * (n : ℚ) / 250 < x ∧ (x : ℚ) ≤ 9 * n / 250)) ∧
      (basel_traffic_light_99_stats n x = Zone.red ↔ 9 * (n : ℚ) / 250 < x)) ∧
    (n < 80 → basel_traffic_light_99 n x = Zone.undefined) ∧
    (80 ≤ n →
      (basel_traffic_light_99 n x = Zone.green ↔
        (x : ℤ) ≤ max (roundHalfEven (4 * (n : ℚ) / 250)) 0) ∧
      (basel_traffic_light_99 n x = Zone.yellow ↔
        (max (roundHalfEven (4 * (n : ℚ) / 250)) 0 < (x : ℤ) ∧
         (x : ℤ) ≤ max (roundHalfEven (9 * (n : ℚ) / 250))
            (max (roundHalfEven (4 * (n : ℚ) / 250)) 0))) ∧
      (basel_traffic_light_99 n x = Zone.red ↔
        max (roundHalfEven (9 * (n : ℚ) / 250))
          (max (roundHalfEven (4 * (n : ℚ) / 250)) 0) < (x : ℤ))) := by
  have hmono : (4 : ℚ) * n / 250 ≤ 9 * n / 250 := by
    have hn0 : (0 : ℚ) ≤ (n : ℚ) := Nat.cast_nonneg n
    linarith
  refine ⟨?_, ?_, ?_⟩
  · intro hn
    have hn0 : ¬ n = 0 := by omega
    have hgi := le_floor_nudge_iff_4 n x
    have hyi := le_floor_nudge_iff_9 n x
    simp only [basel_traffic_light_99_stats, if_neg hn0]
    by_cases hg : (x : ℤ) ≤ (4 / 250 * (n : ℚ) + 1 / 10 ^ 9).floor
    · rw [if_pos hg]
      have hq := hgi.mp hg
      refine ⟨⟨fun _ => hq, fun _ => rfl⟩, ?_, ?_⟩
      · exact ⟨fun hz => absurd hz (by decide), fun hc => absurd hq (not_le.mpr hc.1)⟩
      · refine ⟨fun hz => absurd hz (by decide), fun hc => ?_⟩
        exact absurd (le_trans hq hmono) (not_le.mpr hc)
    · rw [if_neg hg]
      have hq : ¬ (x : ℚ) ≤ 4 * n / 250 := fun hc => hg (hgi.mpr hc)
      by_cases hy : (x : ℤ) ≤ (9 / 250 * (n : ℚ) + 1 / 10 ^ 9).floor
      · rw [if_pos hy]
        have hq9 := hyi.mp hy
        refine ⟨?_, ?_, ?_⟩
        · exact ⟨fun hz => absurd hz (by decide), fun hc => absurd hc hq⟩
        · exact ⟨fun _ => ⟨not_le.mp hq, hq9⟩, fun _ => rfl⟩
        · exact ⟨fun hz => absurd hz (by decide),
            fun hc => absurd hq9 (not_le.mpr hc)⟩
      · rw [if_neg hy]
        have hq9 : ¬ (x : ℚ) ≤ 9 * n / 250 := fun hc => hy (hyi.mpr hc)
        refine ⟨?_, ?_, ?_⟩
        · exact ⟨fun hz => absurd hz (by decide), fun hc => absurd hc hq⟩
        · exact ⟨fun hz => absurd hz (by decide), fun hc => absurd hc.2 hq9⟩
        · exact ⟨fun _ => not_le.mp hq9, fun _ => rfl⟩
  · intro h80
    by_cases hn0 : n = 0
    · simp [basel_traffic_light_99, hn0]
    · simp only [basel_traffic_light_99, basel_thresholds_99,
        if_neg hn0, if_pos h80]
  · intro h80
    have hn0 : ¬ n = 0 := by omega
    have h80' : ¬ n < 80 := by omega
    simp only [basel_traffic_light_99, basel_thresholds_99,
      if_neg hn0, if_neg h80']
    by_cases hg : (x : ℤ) ≤ max (roundHalfEven (4 * (n : ℚ) / 250)) 0
    · rw [if_pos hg]
      refine ⟨⟨fun _ => hg, fun _ => rfl⟩, ?_, ?_⟩
      · exact ⟨fun hz => absurd hz (by decide), fun hc => absurd hg (not_le.mpr hc.1)⟩
      · refine ⟨fun hz => absurd hz (by decide), fun hc => ?_⟩
        exact absurd (le_trans hg (le_max_right _ _)) (not_le.mpr hc)
    · rw [if_neg hg]
      by_cases hy : (x : ℤ) ≤ max (roundHalfEven (9 * (n : ℚ) / 250))
          (max (roundHalfEven (4 * (n : ℚ) / 250)) 0)
      · rw [if_pos hy]
        refine ⟨?_, ?_, ?_⟩
        · exact ⟨fun hz => absurd hz (by decide), fun hc => absurd hc hg⟩
        · exact ⟨fun _ => ⟨not_le.mp hg, hy⟩, fun _ => rfl⟩
        · exact ⟨fun hz => absurd hz (by decide), fun hc => absurd hy (not_le.mpr hc)⟩
      · rw [if_neg hy]
        refine ⟨?_, ?_, ?_⟩
        · exact ⟨fun hz => absurd hz (by decide), fun hc => absurd hc hg⟩
        · exact ⟨fun hz => absurd hz (by decide), fun hc => absurd hc.2 hy⟩
        · exact ⟨fun _ => not_le.mp hy, fun _ => rfl⟩

/-- Witness for C9 amended: green at (250, 4), undefined at (10, 0), red at
(250, 10). -/
theorem basel_traffic_light_amended_witness :
    basel_traffic_light_99_stats 250 4 = Zone.green ∧
    basel_traffic_light_99 10 0 = Zone.undefined ∧
    basel_traffic_light_99 250 10 = Zone.red := by
  refine ⟨?_, ?_, ?_⟩
  · exact ((basel_traffic_light_amended 250 4).1 (by norm_num)).1.mpr (by norm_num)
  · exact (basel_traffic_light_amended 10 0).2.1 (by norm_num)
  · exact ((basel_traffic_light_amended 250 10).2.2 (by norm_num)).2.2.mpr (by decide)

end MarketRisk
